import Mathlib

/-!
Verification of the "31" card-game web application.

The repository is a React frontend driving a Flask rules engine through a
REST command interface.  The frontend sources are embedded directly
(App.js, GameSetup.js, GameActions.js, DiscardPile.js, PlayerHand,
TableGameBoard.js, GameBoard.js).  The backend engine module
(game_logic.py) is referenced by the backend README but its source is not
part of this tree, so the engine-side operations (dealing, drawing,
discarding, knocking, scoring, turn rotation) are modelled from the
specification and marked as such in their doc comments.
-/

set_option maxHeartbeats 1000000

namespace ThirtyOne

/-- Card suits (data model section 3 of the spec: suit has 4 values). -/
inductive Suit where
  | hearts
  | diamonds
  | clubs
  | spades
deriving DecidableEq, Fintype, Repr

/-- Card ranks (13 values). -/
inductive Rank where
  | r2 | r3 | r4 | r5 | r6 | r7 | r8 | r9 | r10
  | jack | queen | king | ace
deriving DecidableEq, Fintype, Repr

/-- Immutable card value type. -/
structure Card where
  suit : Suit
  rank : Rank
deriving DecidableEq, Fintype, Repr

/-- Game phases used by both frontend and engine:
dealing, playing, final_round, round_end, finished. -/
inductive Phase where
  | dealing
  | playing
  | finalRound
  | roundEnd
  | finished
deriving DecidableEq, Repr

/-! ## Frontend game-state snapshot (the JSON object held in React state) -/

/-- A player entry of the JSON game state consumed by the frontend
(App.js, PlayerHand, GameBoard.js): name, hand, lives, has_knocked,
is_eliminated, is_ai. -/
structure FPlayer where
  name : String
  hand : List Card
  lives : Nat
  hasKnocked : Bool
  isEliminated : Bool
  isAI : Bool
deriving DecidableEq, Repr

/-- The frontend game-state snapshot: players (ordered mapping id to
player), current_player_id, phase, discard_pile (most recent first),
deck_size, and the optional turn_time_remaining used by
TableGameBoard.js. -/
structure FState where
  players : List (String × FPlayer)
  currentPlayerId : String
  phase : Phase
  discardPile : List Card
  deckSize : Nat
  turnTimeRemaining : Option Int
deriving DecidableEq, Repr

/-- Dictionary access gameState.players[playerId] of the JS code. -/
def FState.player (gs : FState) (pid : String) : Option FPlayer :=
  (gs.players.find? (fun e => e.1 == pid)).map (fun e => e.2)

/-- App.js canDrawCard (lines 155-169, identical in part_008 lines
204-218): false on empty player id (JS falsy check), requires the caller
to be the current turn holder, phase playing or final_round, the player
present and not eliminated, and a hand of exactly 3 cards. -/
def canDrawCard (gs : FState) (pid : String) : Bool :=
  if pid == "" then false
  else if pid != gs.currentPlayerId then false
  else if !(gs.phase == Phase.playing || gs.phase == Phase.finalRound) then false
  else
    match gs.player pid with
    | none => false
    | some p => if p.isEliminated then false else p.hand.length == 3

/-- App.js canKnock (lines 187-201, identical in part_008 lines 236-250):
same guards as canDrawCard, then hand size 3 and not already knocked.
Note the phase guard accepts both playing and final_round. -/
def canKnock (gs : FState) (pid : String) : Bool :=
  if pid == "" then false
  else if pid != gs.currentPlayerId then false
  else if !(gs.phase == Phase.playing || gs.phase == Phase.finalRound) then false
  else
    match gs.player pid with
    | none => false
    | some p =>
      if p.isEliminated then false
      else p.hand.length == 3 && !p.hasKnocked

/-- GameBoard.js line 22: the board-local draw gate, computed from the
snapshot without any phase check. -/
def gbCanDrawCard (gs : FState) (pid : String) : Bool :=
  match gs.player pid with
  | none => false
  | some p => p.hand.length == 3 && (gs.currentPlayerId == pid)

/-- GameBoard.js line 24: the board-local knock gate, again without any
phase check. -/
def gbCanKnock (gs : FState) (pid : String) : Bool :=
  match gs.player pid with
  | none => false
  | some p => p.hand.length == 3 && (gs.currentPlayerId == pid) && !p.hasKnocked

/-! ## C7: the AI driver loop of App.js -/

/-- App.js playAITurn (lines 61-76) and the auto-refresh effect (lines
79-89): the loop continues exactly when the current turn holder exists,
is an AI, and the phase is not finished. -/
def shouldContinueAI (gs : FState) : Bool :=
  match gs.player gs.currentPlayerId with
  | none => false
  | some p => p.isAI && !(gs.phase == Phase.finished)

/-- The caller-side AI driver loop: while the continue condition holds,
apply one synchronous AI step and repeat; fuel bounds the iteration. -/
def aiDriver (step : FState → FState) : Nat → FState → FState
  | 0, gs => gs
  | fuel + 1, gs =>
    if shouldContinueAI gs then aiDriver step fuel (step gs) else gs

/-! ## C9: GameSetup.js submit validation -/

/-- The character list of a string with leading and trailing whitespace
removed; this models the JS String.prototype.trim call of
GameSetup.js. -/
def trimmed (s : String) : List Char :=
  ((s.data.dropWhile Char.isWhitespace).reverse.dropWhile Char.isWhitespace).reverse

/-- GameSetup.js handleSubmit (lines 49-67): reject when the total player
count (humans plus AI) is outside 2..8, reject when any human name is
blank after trimming, otherwise submit the create request. -/
def handleSubmit (playerNames : List String) (numAiPlayers : Nat) :
    Option (List String × Nat) :=
  let totalPlayers := playerNames.length + numAiPlayers
  if totalPlayers < 2 || totalPlayers > 8 then none
  else
    let validNames := playerNames.filter (fun s => (trimmed s).length > 0)
    if validNames.length != playerNames.length then none
    else some (validNames, numAiPlayers)

/-! ## C10: DiscardPile.js rendering of the draw-from-discard control -/

/-- DiscardPile.js line 12: the top card is element 0 of the pile when the
pile is non-empty, otherwise null. -/
def topCard (cards : List Card) : Option Card :=
  if cards.length > 0 then cards.get? 0 else none

/-- DiscardPile.js lines 21-37: the Draw button is rendered only inside
the branch where a top card exists, and only when canDrawFromDiscard
holds. -/
def drawFromDiscardButtonShown (cards : List Card) (canDrawFromDiscard : Bool) : Bool :=
  (topCard cards).isSome && canDrawFromDiscard

/-! ## C2: PlayerHand card visibility (part_007) -/

/-- What the interface renders for one card slot. -/
inductive CardView where
  | faceUp (c : Card)
  | faceDown
deriving DecidableEq, Repr

/-- PlayerHand (part_007 line 76): cards are shown face up for the
requesting player, for an eliminated player, or once the game phase is
finished. -/
def showCards (p : FPlayer) (isCurrentPlayer : Bool) (gamePhase : Phase) : Bool :=
  isCurrentPlayer || p.isEliminated || (gamePhase == Phase.finished)

/-- PlayerHand (part_007 lines 74-98): the rendered hand is the face-up
card list when showCards holds, otherwise one face-down back per card. -/
def renderedHand (p : FPlayer) (isCurrentPlayer : Bool) (gamePhase : Phase) :
    List CardView :=
  if showCards p isCurrentPlayer gamePhase then p.hand.map CardView.faceUp
  else p.hand.map (fun _ => CardView.faceDown)

/-! ## C6: turn-clock handling (GameActions.js, TableGameBoard.js) -/

/-- GameActions.js lines 15-18: expiry of the turn clock only disables the
action buttons; the effective gates are the incoming gates conjoined with
the clock not having expired for the current turn holder. -/
structure ActionGating where
  isTimedOut : Bool
  effectiveCanDrawCard : Bool
  effectiveCanKnock : Bool
deriving DecidableEq, Repr

/-- GameActions.js lines 15-18 as a pure function of the component
props. -/
def gameActionsGating (canDraw knockGate isCurrentPlayerTurn : Bool)
    (turnTimeRemaining : Int) : ActionGating :=
  let timedOut := isCurrentPlayerTurn && decide (turnTimeRemaining ≤ 0)
  { isTimedOut := timedOut
    effectiveCanDrawCard := canDraw && !timedOut
    effectiveCanKnock := knockGate && !timedOut }

/-- The local component state of TableGameBoard.js that the two timer
effects operate on: the held game snapshot and the local countdown. -/
structure TGBLocal where
  gameState : Option FState
  localTurnTimeRemaining : Int
deriving DecidableEq, Repr

/-- TableGameBoard.js lines 29-40: the once-per-second countdown effect;
it only rewrites the local timer value. -/
def timerTickEffect (s : TGBLocal) : TGBLocal :=
  { s with
    localTurnTimeRemaining :=
      if s.localTurnTimeRemaining > 0 then s.localTurnTimeRemaining - 1 else 0 }

/-- TableGameBoard.js lines 43-47: the sync effect copies the server-held
turn_time_remaining into the local timer when it is defined. -/
def syncTimerEffect (s : TGBLocal) : TGBLocal :=
  match s.gameState with
  | none => s
  | some gs =>
    match gs.turnTimeRemaining with
    | none => s
    | some t => { s with localTurnTimeRemaining := t }

/-! ## Scoring engine

Modelled from the spec: the scoring engine lives in the backend module
game_logic.py, which is not part of this tree (only the backend README
and the RulesModal rule text under src describe it). -/

/-- Modelled from the spec: point value of a rank, 2-10 at face value,
J/Q/K worth 10, A worth 11 (spec section 4.2; RulesModal lines 21-28). -/
def cardValue : Rank → Nat
  | Rank.r2 => 2
  | Rank.r3 => 3
  | Rank.r4 => 4
  | Rank.r5 => 5
  | Rank.r6 => 6
  | Rank.r7 => 7
  | Rank.r8 => 8
  | Rank.r9 => 9
  | Rank.r10 => 10
  | Rank.jack => 10
  | Rank.queen => 10
  | Rank.king => 10
  | Rank.ace => 11

/-- Modelled from the spec: sum of the point values of the cards of one
suit in a hand. -/
def suitSum (hand : List Card) (s : Suit) : Nat :=
  ((hand.filter (fun c => c.suit == s)).map (fun c => cardValue c.rank)).sum

/-- The suits present in a hand, each once. -/
def handSuits (hand : List Card) : List Suit :=
  (hand.map Card.suit).dedup

/-- Modelled from the spec: a hand of exactly three cards sharing one
rank. -/
def isTrips (hand : List Card) : Bool :=
  match hand with
  | [a, b, c] => a.rank == b.rank && b.rank == c.rank
  | _ => false

/-- Modelled from the spec: the trips candidate value, 30 for a shared
rank, 31 when all three cards are Aces. -/
def tripsValue (hand : List Card) : Option Nat :=
  if isTrips hand then
    if hand.all (fun c => c.rank == Rank.ace) then some 31 else some 30
  else none

/-- Modelled from the spec: the best per-suit candidate value of a hand. -/
def bestSuitScore (hand : List Card) : Nat :=
  ((handSuits hand).map (suitSum hand)).foldr max 0

/-- Modelled from the spec: best_score value, the maximum over the suit
candidates and the trips candidate when present. -/
def bestScoreVal (hand : List Card) : Nat :=
  match tripsValue hand with
  | some v => max (bestSuitScore hand) v
  | none => bestSuitScore hand

/-- Which rule produced the best score. -/
inductive ScoreKind where
  | bySuit
  | trips
deriving DecidableEq, Repr

/-- Modelled from the spec: the reported kind; a numeric tie between the
trips candidate and a suit candidate prefers the trips kind. -/
def bestScoreKind (hand : List Card) : ScoreKind :=
  match tripsValue hand with
  | some v => if bestSuitScore hand ≤ v then ScoreKind.trips else ScoreKind.bySuit
  | none => ScoreKind.bySuit

/-! ## Engine state machine

Modelled from the spec: the Flask engine (game_logic.py) is absent from
the tree, so the state machine of spec sections 4.1 and 4.3 is embedded
here for the conservation and knock-rotation claims. -/

/-- Engine-side player state. -/
structure EPlayer where
  hand : List Card
  lives : Nat
  hasKnocked : Bool
  isEliminated : Bool
deriving DecidableEq, Repr

/-- Engine-side game state: draw pile, discard pile (most recent first),
seats in order, phase, current seat index, knocker, winner, round
number. -/
structure EState where
  deck : List Card
  discardPile : List Card
  players : List EPlayer
  phase : Phase
  currentIdx : Nat
  knockerIdx : Option Nat
  winnerIdx : Option Nat
  roundNumber : Nat
deriving DecidableEq, Repr

/-- The typed failures of the command interface (spec section 7). -/
inductive GameErr where
  | wrongTurn
  | wrongPhase
  | illegalHandSize
  | invalidIndex
  | emptySource
  | alreadyKnocked
  | gameFinished
deriving DecidableEq, Repr

/-- All thirteen ranks. -/
def allRanks : List Rank :=
  [Rank.r2, Rank.r3, Rank.r4, Rank.r5, Rank.r6, Rank.r7, Rank.r8, Rank.r9,
   Rank.r10, Rank.jack, Rank.queen, Rank.king, Rank.ace]

/-- All four suits. -/
def allSuits : List Suit :=
  [Suit.hearts, Suit.diamonds, Suit.clubs, Suit.spades]

/-- The 52-card deck. -/
def standardDeck : List Card :=
  allSuits.flatMap (fun s => allRanks.map (fun r => Card.mk s r))

/-- The cards held in the seats' hands, in seat order. -/
def handsOf (ps : List EPlayer) : List Card :=
  (ps.map EPlayer.hand).flatten

/-- Every card of a state: draw pile, then discard pile, then hands. -/
def allCards (st : EState) : List Card :=
  st.deck ++ st.discardPile ++ handsOf st.players

/-- Whether seat j exists and is not eliminated. -/
def activeAt (ps : List EPlayer) (j : Nat) : Bool :=
  match ps.get? j with
  | none => false
  | some p => !p.isEliminated

/-- The seat indices scanned when looking for the seat after i:
i+1, i+2, ..., i+n, each reduced modulo n. -/
def rotationAfter (n i : Nat) : List Nat :=
  (List.range n).map (fun j => (i + 1 + j) % n)

/-- Modelled from the spec: advance to the next non-eliminated seat after
i with wrap-around; the first active seat of the scan order. -/
def nextActiveIdx (ps : List EPlayer) (i : Nat) : Nat :=
  ((rotationAfter ps.length i).find? (activeAt ps)).getD i

/-- The successive turn holders the engine visits after seat i during the
final round: repeatedly advance, stopping when the advance would hand
control back to knocker k. -/
def turnsAux (ps : List EPlayer) (k : Nat) : Nat → Nat → List Nat
  | 0, _ => []
  | fuel + 1, i =>
    let j := nextActiveIdx ps i
    if j = k then [] else j :: turnsAux ps k fuel j

/-- Modelled from the spec: the complete sequence of turn holders between
a knock by seat k and the round resolution that triggers when the advance
would return to k. -/
def finalRoundTurns (ps : List EPlayer) (k : Nat) : List Nat :=
  turnsAux ps k ps.length k

/-- Modelled from the spec: deal 3 cards to every non-eliminated seat
from the given freshly shuffled deck, clearing eliminated seats' hands
and every knock flag; returns the remaining deck and the new seats. -/
def dealHands : List Card → List EPlayer → List Card × List EPlayer
  | deck, [] => (deck, [])
  | deck, p :: ps =>
    if p.isEliminated then
      let r := dealHands deck ps
      (r.1, { p with hand := [], hasKnocked := false } :: r.2)
    else
      let r := dealHands (deck.drop 3) ps
      (r.1, { p with hand := deck.take 3, hasKnocked := false } :: r.2)

/-- Modelled from the spec: deal_round deals from a freshly shuffled
deck, flips one card to start the discard pile, clears knock state,
rotates the starting seat, sets phase playing and increments the round
number. -/
def dealRound (newDeck : List Card) (st : EState) : EState :=
  let r := dealHands newDeck st.players
  { st with
    players := r.2
    deck := r.1.drop 1
    discardPile := r.1.take 1
    phase := Phase.playing
    knockerIdx := none
    currentIdx := nextActiveIdx r.2 st.currentIdx
    roundNumber := st.roundNumber + 1 }

/-- The seats of a fresh game: empty hands, 3 lives, no flags set. -/
def initPlayers (n : Nat) : List EPlayer :=
  List.replicate n { hand := [], lives := 3, hasKnocked := false, isEliminated := false }

/-- Modelled from the spec: create(players) builds the seats and
auto-deals the first round from the shuffled deck. -/
def newGame (n : Nat) (deck : List Card) : EState :=
  dealRound deck
    { deck := [], discardPile := [], players := initPlayers n
      phase := Phase.dealing, currentIdx := 0, knockerIdx := none
      winnerIdx := none, roundNumber := 0 }

/-- Modelled from the spec: draw(player, from_discard).  Validates turn
ownership, phase and hand size; draws the chosen source; when the draw
pile is exhausted the discard pile except its head is reshuffled into a
fresh draw pile (the reshuffled order is supplied by the caller of this
model) and the draw is retried.  Fails without mutating otherwise. -/
def drawCmd (playerIdx : Nat) (fromDiscard : Bool) (reshuffled : List Card)
    (st : EState) : Except GameErr EState :=
  if st.phase = Phase.finished then Except.error GameErr.gameFinished
  else if playerIdx ≠ st.currentIdx then Except.error GameErr.wrongTurn
  else if ¬(st.phase = Phase.playing ∨ st.phase = Phase.finalRound) then
    Except.error GameErr.wrongPhase
  else
    match st.players.get? playerIdx with
    | none => Except.error GameErr.wrongTurn
    | some p =>
      if p.hand.length ≠ 3 then Except.error GameErr.illegalHandSize
      else if fromDiscard then
        match st.discardPile with
        | [] => Except.error GameErr.emptySource
        | c :: rest =>
          Except.ok { st with
            players := st.players.set playerIdx { p with hand := p.hand ++ [c] }
            discardPile := rest }
      else
        match st.deck with
        | c :: rest =>
          Except.ok { st with
            players := st.players.set playerIdx { p with hand := p.hand ++ [c] }
            deck := rest }
        | [] =>
          match st.discardPile with
          | [] => Except.error GameErr.emptySource
          | top :: _ =>
            match reshuffled with
            | [] => Except.error GameErr.emptySource
            | c :: rest =>
              Except.ok { st with
                players := st.players.set playerIdx { p with hand := p.hand ++ [c] }
                deck := rest
                discardPile := [top] }

/-- Modelled from the spec: an immediate-win hand, score 31 or
three-of-a-kind. -/
def isImmediateWin (hand : List Card) : Bool :=
  bestScoreVal hand == 31 || isTrips hand

/-- Lives adjustment of one losing seat: lose a life, eliminate at 0. -/
def loseLife (p : EPlayer) : EPlayer :=
  { p with lives := p.lives - 1, isEliminated := p.lives - 1 == 0 }

/-- Modelled from the spec: after lives are adjusted, the game is
finished with a winner when at most one non-eliminated seat remains,
otherwise the round ends awaiting the next deal. -/
def checkEnd (st : EState) : EState :=
  if (st.players.filter (fun p => !p.isEliminated)).length ≤ 1 then
    { st with phase := Phase.finished
              winnerIdx := (List.range st.players.length).find? (activeAt st.players) }
  else { st with phase := Phase.roundEnd }

/-- Every non-eliminated seat other than the winner loses a life
(immediate-win resolution); index-carrying recursion over the seats. -/
def penalizeOthers (winnerIdx : Nat) : Nat → List EPlayer → List EPlayer
  | _, [] => []
  | i, p :: ps =>
    (if i = winnerIdx ∨ p.isEliminated then p else loseLife p)
      :: penalizeOthers winnerIdx (i + 1) ps

/-- Modelled from the spec: immediate-win resolution, penalizing every
other non-eliminated seat regardless of its own score. -/
def resolveImmediate (winnerIdx : Nat) (st : EState) : EState :=
  checkEnd { st with players := penalizeOthers winnerIdx 0 st.players }

/-- Modelled from the spec: normal round resolution; every non-eliminated
seat tied at the minimum best score loses one life simultaneously. -/
def resolveRound (st : EState) : EState :=
  let activeScores :=
    (st.players.filter (fun p => !p.isEliminated)).map (fun p => bestScoreVal p.hand)
  let minScore := activeScores.foldr min 32
  checkEnd { st with
    players := st.players.map (fun p =>
      if !p.isEliminated && bestScoreVal p.hand == minScore then loseLife p else p) }

/-- Modelled from the spec: discard(player, index).  Requires hand size 4
and a valid index; moves the card to the discard-pile head; an
immediate-win hand resolves at once, otherwise the turn advances to the
next non-eliminated seat, triggering resolution instead when that advance
would return control to the knocker during the final round. -/
def discardCmd (playerIdx cardIdx : Nat) (st : EState) : Except GameErr EState :=
  if st.phase = Phase.finished then Except.error GameErr.gameFinished
  else if playerIdx ≠ st.currentIdx then Except.error GameErr.wrongTurn
  else if ¬(st.phase = Phase.playing ∨ st.phase = Phase.finalRound) then
    Except.error GameErr.wrongPhase
  else
    match st.players.get? playerIdx with
    | none => Except.error GameErr.wrongTurn
    | some p =>
      if p.hand.length ≠ 4 then Except.error GameErr.illegalHandSize
      else
        match p.hand.get? cardIdx with
        | none => Except.error GameErr.invalidIndex
        | some c =>
          let newHand := p.hand.eraseIdx cardIdx
          let st2 := { st with
            players := st.players.set playerIdx { p with hand := newHand }
            discardPile := c :: st.discardPile }
          if isImmediateWin newHand then Except.ok (resolveImmediate playerIdx st2)
          else
            let nxt := nextActiveIdx st2.players playerIdx
            if st2.phase = Phase.finalRound ∧ st2.knockerIdx = some nxt then
              Except.ok (resolveRound st2)
            else Except.ok { st2 with currentIdx := nxt }

/-- Modelled from the spec: knock(player).  Requires turn ownership,
phase playing, hand size 3 and no prior knock; sets the knock state and
the final-round phase, then the turn advances normally. -/
def knockCmd (playerIdx : Nat) (st : EState) : Except GameErr EState :=
  if st.phase = Phase.finished then Except.error GameErr.gameFinished
  else if playerIdx ≠ st.currentIdx then Except.error GameErr.wrongTurn
  else if st.phase ≠ Phase.playing then Except.error GameErr.wrongPhase
  else
    match st.players.get? playerIdx with
    | none => Except.error GameErr.wrongTurn
    | some p =>
      if p.hand.length ≠ 3 then Except.error GameErr.illegalHandSize
      else if p.hasKnocked then Except.error GameErr.alreadyKnocked
      else
        let ps2 := st.players.set playerIdx { p with hasKnocked := true }
        Except.ok { st with
          players := ps2
          knockerIdx := some playerIdx
          phase := Phase.finalRound
          currentIdx := nextActiveIdx ps2 playerIdx }

/-- The states reachable through legal command sequences: a fresh game
from any shuffled 52-card deck, then deals, draws (with any reshuffle
permutation of the non-top discard cards), discards and knocks that
succeed.  An ai_step applies one of the same commands, so it adds no
further transitions. -/
inductive Reachable : EState → Prop where
  | create : ∀ (n : Nat) (deck : List Card), deck.Perm standardDeck →
      Reachable (newGame n deck)
  | deal : ∀ st deck, Reachable st → st.phase = Phase.roundEnd →
      deck.Perm standardDeck → Reachable (dealRound deck st)
  | draw : ∀ st st2 i b resh, Reachable st → resh.Perm (st.discardPile.drop 1) →
      drawCmd i b resh st = Except.ok st2 → Reachable st2
  | disc : ∀ st st2 i idx, Reachable st →
      discardCmd i idx st = Except.ok st2 → Reachable st2
  | knock : ∀ st st2 i, Reachable st →
      knockCmd i st = Except.ok st2 → Reachable st2

/-! ## Concrete sample states used as witnesses -/

/-- A concrete final-round snapshot: player_1 is the turn holder with
three cards and no prior knock; player_2 has knocked. -/
def finalRoundSnap : FState :=
  { players :=
      [("player_1",
        { name := "P1"
          hand := [Card.mk Suit.spades Rank.ace, Card.mk Suit.hearts Rank.r7,
                   Card.mk Suit.clubs Rank.king]
          lives := 3, hasKnocked := false, isEliminated := false, isAI := false }),
       ("player_2",
        { name := "P2"
          hand := [Card.mk Suit.diamonds Rank.r2, Card.mk Suit.diamonds Rank.r9,
                   Card.mk Suit.spades Rank.queen]
          lives := 2, hasKnocked := true, isEliminated := false, isAI := false })]
    currentPlayerId := "player_1"
    phase := Phase.finalRound
    discardPile := [Card.mk Suit.hearts Rank.r3]
    deckSize := 40
    turnTimeRemaining := none }

/-- A sample player entry used by visibility witnesses. -/
def samplePlayer : FPlayer :=
  { name := "Eve"
    hand := [Card.mk Suit.hearts Rank.r2, Card.mk Suit.clubs Rank.r5,
             Card.mk Suit.spades Rank.jack]
    lives := 3, hasKnocked := false, isEliminated := false, isAI := false }

/-- A sample AI player entry. -/
def sampleAI : FPlayer :=
  { name := "Bot"
    hand := [Card.mk Suit.hearts Rank.r4, Card.mk Suit.clubs Rank.r6,
             Card.mk Suit.spades Rank.r8]
    lives := 3, hasKnocked := false, isEliminated := false, isAI := true }

/-- A snapshot whose turn holder is an AI during play. -/
def aiTurnSnap : FState :=
  { players := [("player_1", samplePlayer), ("ai_1", sampleAI)]
    currentPlayerId := "ai_1"
    phase := Phase.playing
    discardPile := [Card.mk Suit.hearts Rank.r3]
    deckSize := 42
    turnTimeRemaining := none }

/-! ## Claim theorems for the frontend -/

/-- C1: the spec requires knock to be permitted only in phase playing,
never during final_round.  The embedded canKnock of App.js evaluates to
true on a final-round snapshot whose turn holder has three cards and has
not knocked, so the interface permits a knock during final_round. -/
theorem canKnock_true_in_final_round :
    canKnock finalRoundSnap "player_1" = true ∧
    finalRoundSnap.phase = Phase.finalRound ∧
    (finalRoundSnap.player "player_1").map FPlayer.hasKnocked = some false := by
  refine ⟨by decide, rfl, by decide⟩

/-- C2: PlayerHand renders the requesting player's own hand face up; an
opponent's hand is face up exactly when that opponent is eliminated or
the phase is finished, and face down otherwise. -/
theorem playerHand_visibility (p : FPlayer) (ph : Phase) :
    renderedHand p true ph = p.hand.map CardView.faceUp ∧
    (p.isEliminated = true ∨ ph = Phase.finished →
      renderedHand p false ph = p.hand.map CardView.faceUp) ∧
    (p.isEliminated = false → ph ≠ Phase.finished →
      renderedHand p false ph = p.hand.map (fun _ => CardView.faceDown)) ∧
    showCards p false ph = (p.isEliminated || (ph == Phase.finished)) := by
  refine ⟨?_, ?_, ?_, ?_⟩
  · simp [renderedHand, showCards]
  · intro h
    rcases h with h | h
    · simp [renderedHand, showCards, h]
    · simp [renderedHand, showCards, h]
  · intro h1 h2
    simp [renderedHand, showCards, h1, h2]
  · simp [showCards]

/-- Witness for C2 at a concrete opponent and the finished phase. -/
theorem playerHand_visibility_witness :
    renderedHand samplePlayer false Phase.finished =
      samplePlayer.hand.map CardView.faceUp :=
  (playerHand_visibility samplePlayer Phase.finished).2.1 (Or.inr rfl)

/-- C6: the turn-clock effects never touch the held game state, and
expiry only disables the action buttons; any state change after a timeout
can only come from an explicit command request. -/
theorem turn_clock_never_mutates (s : TGBLocal) (cd ck ict : Bool) (t : Int) :
    (timerTickEffect s).gameState = s.gameState ∧
    (syncTimerEffect s).gameState = s.gameState ∧
    ((gameActionsGating cd ck ict t).isTimedOut = true →
      (gameActionsGating cd ck ict t).effectiveCanDrawCard = false ∧
      (gameActionsGating cd ck ict t).effectiveCanKnock = false) := by
  refine ⟨rfl, ?_, ?_⟩
  · unfold syncTimerEffect
    cases hgs : s.gameState with
    | none => simpa using hgs
    | some gs =>
      cases ht : gs.turnTimeRemaining with
      | none => simpa [ht] using hgs
      | some tv => simp [ht, hgs]
  · intro h
    unfold gameActionsGating at h ⊢
    simp only at h
    simp [h]

/-- Witness for C6 with the clock expired for the turn holder. -/
theorem turn_clock_never_mutates_witness :
    (gameActionsGating true true true 0).effectiveCanDrawCard = false ∧
    (gameActionsGating true true true 0).effectiveCanKnock = false :=
  (turn_clock_never_mutates ⟨none, 0⟩ true true true 0).2.2 (by decide)

/-- C7: the AI driver re-invokes the step exactly while the turn holder
is an AI and the phase is not finished, and leaves the state untouched as
soon as the holder is human or the phase is finished. -/
theorem ai_driver_loop (step : FState → FState) (fuel : Nat) (gs : FState)
    (p : FPlayer) (hp : gs.player gs.currentPlayerId = some p) :
    (shouldContinueAI gs = true ↔ (p.isAI = true ∧ gs.phase ≠ Phase.finished)) ∧
    ((p.isAI = false ∨ gs.phase = Phase.finished) → aiDriver step fuel gs = gs) ∧
    (shouldContinueAI gs = true →
      aiDriver step (fuel + 1) gs = aiDriver step fuel (step gs)) := by
  have hcond : shouldContinueAI gs = (p.isAI && !(gs.phase == Phase.finished)) := by
    unfold shouldContinueAI
    rw [hp]
  refine ⟨?_, ?_, ?_⟩
  · rw [hcond]
    simp [Bool.and_eq_true]
  · intro h
    have hfalse : shouldContinueAI gs = false := by
      rw [hcond]
      rcases h with h | h
      · simp [h]
      · simp [h]
    cases fuel <;> simp [aiDriver, hfalse]
  · intro h
    simp [aiDriver, h]

/-- Witness for C7: on an AI-turn snapshot the continue condition is
equivalent to the AI-and-unfinished conjunction. -/
theorem ai_driver_loop_witness :
    shouldContinueAI aiTurnSnap = true ↔
      (sampleAI.isAI = true ∧ aiTurnSnap.phase ≠ Phase.finished) :=
  (ai_driver_loop id 0 aiTurnSnap sampleAI (by decide)).1

/-- C9: a create request is submitted only when the total seat count is
between 2 and 8 and every entered human name is non-blank; every other
configuration is rejected before the request is sent, and the submitted
names are exactly the entered ones. -/
theorem setup_submit_validated (playerNames : List String) (numAiPlayers : Nat)
    (r : List String × Nat)
    (h : handleSubmit playerNames numAiPlayers = some r) :
    2 ≤ playerNames.length + numAiPlayers ∧
    playerNames.length + numAiPlayers ≤ 8 ∧
    (∀ s ∈ playerNames, trimmed s ≠ [] ∧ s ≠ "") ∧
    r = (playerNames, numAiPlayers) := by
  simp only [handleSubmit] at h
  split at h
  · exact absurd h (by simp)
  · rename_i hcond1
    split at h
    · exact absurd h (by simp)
    · rename_i hcond2
      have hall : ∀ s ∈ playerNames, trimmed s ≠ [] := by
        simpa using hcond2
      have hfilter :
          playerNames.filter (fun s => decide ((trimmed s).length > 0)) = playerNames := by
        refine List.filter_eq_self.mpr ?_
        intro a ha
        simpa [List.length_pos] using hall a ha
      have hb : ¬(playerNames.length + numAiPlayers < 2) ∧
          ¬(playerNames.length + numAiPlayers > 8) := by
        constructor <;> intro hx <;> exact hcond1 (by simp [hx])
      refine ⟨by omega, by omega, ?_, ?_⟩
      · intro s hs
        have hpos := hall s hs
        refine ⟨hpos, ?_⟩
        intro he
        subst he
        exact hpos (by decide)
      · have hsome := Option.some.inj h
        rw [← hsome, hfilter]

/-- Witness for C9 at a concrete valid setup of one human and one AI. -/
theorem setup_submit_validated_witness :
    2 ≤ (["Alice"] : List String).length + 1 ∧
    (["Alice"] : List String).length + 1 ≤ 8 ∧
    (∀ s ∈ (["Alice"] : List String), trimmed s ≠ [] ∧ s ≠ "") ∧
    ((["Alice"], 1) : List String × Nat) = (["Alice"], 1) :=
  setup_submit_validated ["Alice"] 1 (["Alice"], 1) (by decide)

/-- C10: the draw-from-discard control appears only when the pile has a
top card (element 0) and the draw gate holds, and with a non-empty pile
the engine's discard-source draw can never fail with EmptySource, so that
failure is unreachable from the interface. -/
theorem discard_draw_button_safe (cards : List Card) (g : Bool) :
    topCard cards = cards.head? ∧
    (drawFromDiscardButtonShown cards g = true → cards ≠ [] ∧ g = true) ∧
    (∀ (st : EState) (i : Nat) (resh : List Card),
      st.discardPile ≠ [] →
      drawCmd i true resh st ≠ Except.error GameErr.emptySource) := by
  refine ⟨?_, ?_, ?_⟩
  · cases cards <;> simp [topCard]
  · intro h
    unfold drawFromDiscardButtonShown at h
    cases cards with
    | nil => simp [topCard] at h
    | cons c cs =>
      refine ⟨by simp, ?_⟩
      simp only [Bool.and_eq_true] at h
      exact h.2
  · intro st i resh hne
    unfold drawCmd
    split
    · simp
    · split
      · simp
      · split
        · simp
        · split
          · simp
          · split
            · simp
            · simp only [if_true]
              cases hd : st.discardPile with
              | nil => exact absurd hd hne
              | cons c rest => simp

/-- Boolean normal form of the App.js draw gate for a present,
non-eliminated player under a non-empty id. -/
theorem canDrawCard_eq (gs : FState) (pid : String) (p : FPlayer)
    (hpid : pid ≠ "") (hp : gs.player pid = some p) (hne : p.isEliminated = false) :
    canDrawCard gs pid =
      ((pid == gs.currentPlayerId) &&
       (gs.phase == Phase.playing || gs.phase == Phase.finalRound) &&
       (p.hand.length == 3)) := by
  unfold canDrawCard
  rw [hp]
  have h0 : (pid == "") = false := by simp [hpid]
  rw [h0]
  simp only [Bool.false_eq_true, if_false, hne]
  by_cases hcur : pid = gs.currentPlayerId
  · have h1 : (pid != gs.currentPlayerId) = false := by simp [hcur]
    rw [h1]
    simp only [Bool.false_eq_true, if_false, hcur, beq_self_eq_true, Bool.true_and]
    by_cases hph : (gs.phase == Phase.playing || gs.phase == Phase.finalRound) = true
    · simp [hph]
    · have h2 : (gs.phase == Phase.playing || gs.phase == Phase.finalRound) = false := by
        simpa using hph
      simp [h2]
  · have h1 : (pid != gs.currentPlayerId) = true := by simp [hcur]
    have h2 : (pid == gs.currentPlayerId) = false := by simp [hcur]
    rw [h1]
    simp [h2]

/-- C8: the App.js draw gate holds exactly for the current turn holder
with a 3-card hand in phase playing or final_round, and a successful
engine draw always leaves the drawing seat with a 4-card hand. -/
theorem draw_permission_and_effect (gs : FState) (pid : String) (p : FPlayer)
    (hpid : pid ≠ "") (hp : gs.player pid = some p) (hne : p.isEliminated = false) :
    (canDrawCard gs pid = true ↔
      (pid = gs.currentPlayerId ∧ p.hand.length = 3 ∧
        (gs.phase = Phase.playing ∨ gs.phase = Phase.finalRound))) ∧
    (∀ (st st2 : EState) (i : Nat) (b : Bool) (resh : List Card) (q : EPlayer),
      drawCmd i b resh st = Except.ok st2 → st2.players.get? i = some q →
      q.hand.length = 4) := by
  constructor
  · rw [canDrawCard_eq gs pid p hpid hp hne]
    simp only [Bool.and_eq_true, Bool.or_eq_true, beq_iff_eq]
    tauto
  · intro st st2 i b resh q hcmd hget
    unfold drawCmd at hcmd
    split at hcmd
    · exact absurd hcmd (by simp)
    split at hcmd
    · exact absurd hcmd (by simp)
    split at hcmd
    · exact absurd hcmd (by simp)
    split at hcmd
    · exact absurd hcmd (by simp)
    rename_i pp hpl
    split at hcmd
    · exact absurd hcmd (by simp)
    rename_i hlen
    have hlen2 : pp.hand.length = 3 := by
      by_contra hC
      exact hlen hC
    have hlt : i < st.players.length := (List.get?_eq_some.mp hpl).1
    split at hcmd
    · split at hcmd
      · exact absurd hcmd (by simp)
      rename_i c rest hdp
      have hst2 := Except.ok.inj hcmd
      rw [← hst2] at hget
      simp only [List.get?_set_eq_of_lt _ hlt] at hget
      have hq := Option.some.inj hget
      rw [← hq]
      simp [hlen2]
    · split at hcmd
      · rename_i c rest hdk
        have hst2 := Except.ok.inj hcmd
        rw [← hst2] at hget
        simp only [List.get?_set_eq_of_lt _ hlt] at hget
        have hq := Option.some.inj hget
        rw [← hq]
        simp [hlen2]
      · split at hcmd
        · exact absurd hcmd (by simp)
        split at hcmd
        · exact absurd hcmd (by simp)
        rename_i c rest hre
        have hst2 := Except.ok.inj hcmd
        rw [← hst2] at hget
        simp only [List.get?_set_eq_of_lt _ hlt] at hget
        have hq := Option.some.inj hget
        rw [← hq]
        simp [hlen2]

/-- Witness for C8: a concrete playing-phase snapshot where the gate is
granted, via the equivalence. -/
theorem draw_permission_and_effect_witness :
    canDrawCard aiTurnSnap "ai_1" = true :=
  (draw_permission_and_effect aiTurnSnap "ai_1" sampleAI (by decide) (by decide)
    (by decide)).1.mpr ⟨rfl, by decide, Or.inl rfl⟩

/-- Witness for C10 on a concrete one-card pile. -/
theorem discard_draw_button_safe_witness :
    [Card.mk Suit.hearts Rank.r3] ≠ ([] : List Card) ∧ true = true :=
  (discard_draw_button_safe [Card.mk Suit.hearts Rank.r3] true).2.1 (by decide)

/-! ## C4: best-score characterization -/

/-- Every member of a list is bounded by the fold of max over it. -/
theorem le_foldr_max (l : List Nat) (a : Nat) (ha : a ∈ l) : a ≤ l.foldr max 0 := by
  induction l with
  | nil => cases ha
  | cons b t ih =>
    rcases List.mem_cons.mp ha with h | h
    · subst h
      exact Nat.le_max_left _ _
    · exact Nat.le_trans (ih h) (Nat.le_max_right _ _)

/-- The fold of max over a non-empty list is one of its members. -/
theorem foldr_max_mem (l : List Nat) (h : l ≠ []) : l.foldr max 0 ∈ l := by
  induction l with
  | nil => exact absurd rfl h
  | cons b t ih =>
    cases t with
    | nil => simp
    | cons c u =>
      rcases Nat.le_total (List.foldr max 0 (c :: u)) b with hle | hle
      · have : List.foldr max 0 (b :: c :: u) = b := by
          simp only [List.foldr]
          exact Nat.max_eq_left hle
        rw [this]
        exact List.mem_cons_self _ _
      · have : List.foldr max 0 (b :: c :: u) = List.foldr max 0 (c :: u) := by
          simp only [List.foldr]
          exact Nat.max_eq_right hle
        rw [this]
        exact List.mem_cons_of_mem _ (ih (by simp))

/-- A fold of max is bounded by any bound of all members. -/
theorem foldr_max_le (l : List Nat) (b : Nat) (h : ∀ a ∈ l, a ≤ b) :
    l.foldr max 0 ≤ b := by
  induction l with
  | nil => exact Nat.zero_le b
  | cons x t ih =>
    simp only [List.foldr]
    exact Nat.max_le.mpr ⟨h x (by simp), ih (fun a ha => h a (List.mem_cons_of_mem _ ha))⟩

/-- A duplicate-free list whose members all equal one value has at most
one member. -/
theorem length_le_one_of_nodup_const {α : Type} (l : List α) (hl : l.Nodup)
    (a : α) (h : ∀ x ∈ l, x = a) : l.length ≤ 1 := by
  match l with
  | [] => simp
  | [x] => simp
  | x :: y :: t =>
    exfalso
    have hx := h x (by simp)
    have hy := h y (by simp)
    have hxy : x ≠ y := by
      have := (List.nodup_cons.mp hl).1
      intro he
      exact this (he ▸ List.mem_cons_self y t)
    exact hxy (hx.trans hy.symm)

/-- The suit sum of a suit not present in the hand is zero. -/
theorem suitSum_of_not_mem (hand : List Card) (s : Suit)
    (hs : s ∉ handSuits hand) : suitSum hand s = 0 := by
  unfold suitSum
  have hf : hand.filter (fun c => c.suit == s) = [] := by
    rw [List.filter_eq_nil_iff]
    intro c hc hbeq
    apply hs
    unfold handSuits
    rw [List.mem_dedup]
    have : c.suit = s := by simpa using hbeq
    rw [← this]
    exact List.mem_map_of_mem Card.suit hc
  rw [hf]
  rfl

/-- Suit sums of present suits are bounded by the best suit score. -/
theorem suitSum_le_bestSuitScore (hand : List Card) (s : Suit)
    (hs : s ∈ handSuits hand) : suitSum hand s ≤ bestSuitScore hand :=
  le_foldr_max _ _ (List.mem_map_of_mem (suitSum hand) hs)

/-- Unfolding of best_score when a trips candidate exists. -/
theorem bestScoreVal_eq_of_some (hand : List Card) (v : Nat)
    (h : tripsValue hand = some v) :
    bestScoreVal hand = max (bestSuitScore hand) v := by
  unfold bestScoreVal
  rw [h]

/-- Unfolding of best_score without a trips candidate. -/
theorem bestScoreVal_eq_of_none (hand : List Card)
    (h : tripsValue hand = none) :
    bestScoreVal hand = bestSuitScore hand := by
  unfold bestScoreVal
  rw [h]

/-- The suit of any card of a non-empty hand is a present suit. -/
theorem handSuits_ne_nil (a : Card) (t : List Card) :
    handSuits (a :: t) ≠ [] := by
  intro hnil
  have hmem : a.suit ∈ handSuits (a :: t) := by
    unfold handSuits
    rw [List.mem_dedup]
    exact List.mem_map_of_mem Card.suit (List.mem_cons_self a t)
  rw [hnil] at hmem
  cases hmem

/-- C4: best_score is the maximum over the per-suit sums and the trips
candidate: it bounds every suit sum and any trips value, it is attained
by one of those candidates, any three-of-a-kind scores at least 30, and a
hand of three distinct Aces scores exactly 31. -/
theorem best_score_characterization (hand : List Card)
    (h3 : hand.length = 3) (hnd : hand.Nodup) :
    (∀ s : Suit, suitSum hand s ≤ bestScoreVal hand) ∧
    (∀ v, tripsValue hand = some v → v ≤ bestScoreVal hand) ∧
    (bestScoreVal hand ∈ (handSuits hand).map (suitSum hand) ∨
      tripsValue hand = some (bestScoreVal hand)) ∧
    (isTrips hand = true → 30 ≤ bestScoreVal hand) ∧
    ((∀ c ∈ hand, c.rank = Rank.ace) → bestScoreVal hand = 31) := by
  have hbss : bestSuitScore hand ≤ bestScoreVal hand := by
    cases htv : tripsValue hand with
    | none => rw [bestScoreVal_eq_of_none hand htv]
    | some v =>
      rw [bestScoreVal_eq_of_some hand v htv]
      exact Nat.le_max_left _ _
  have htrle : ∀ v, tripsValue hand = some v → v ≤ bestScoreVal hand := by
    intro v hv
    rw [bestScoreVal_eq_of_some hand v hv]
    exact Nat.le_max_right _ _
  refine ⟨?_, htrle, ?_, ?_, ?_⟩
  · intro s
    by_cases hs : s ∈ handSuits hand
    · exact Nat.le_trans (suitSum_le_bestSuitScore hand s hs) hbss
    · rw [suitSum_of_not_mem hand s hs]
      exact Nat.zero_le _
  · have hne : (handSuits hand).map (suitSum hand) ≠ [] := by
      cases hand with
      | nil => simp at h3
      | cons a t =>
        intro hmap
        exact handSuits_ne_nil a t (List.map_eq_nil_iff.mp hmap)
    cases htv : tripsValue hand with
    | none =>
      left
      rw [bestScoreVal_eq_of_none hand htv]
      exact foldr_max_mem _ hne
    | some v =>
      rcases Nat.le_total v (bestSuitScore hand) with hle | hle
      · left
        rw [bestScoreVal_eq_of_some hand v htv, Nat.max_eq_left hle]
        exact foldr_max_mem _ hne
      · right
        rw [bestScoreVal_eq_of_some hand v htv, Nat.max_eq_right hle]
  · intro htr
    have hcases : tripsValue hand = some 30 ∨ tripsValue hand = some 31 := by
      unfold tripsValue
      rw [htr]
      by_cases ha : hand.all (fun c => c.rank == Rank.ace) = true
      · right
        rw [if_pos rfl, if_pos ha]
      · left
        rw [if_pos rfl, if_neg ha]
    rcases hcases with hv | hv
    · exact htrle 30 hv
    · exact Nat.le_trans (by omega) (htrle 31 hv)
  · intro hace
    obtain ⟨a, b, c, habc⟩ : ∃ a b c, hand = [a, b, c] := by
      cases hand with
      | nil => simp at h3
      | cons a t =>
        cases t with
        | nil => simp at h3
        | cons b u =>
          cases u with
          | nil => simp at h3
          | cons c w =>
            cases w with
            | nil => exact ⟨a, b, c, rfl⟩
            | cons d x => simp at h3
    subst habc
    have hra : a.rank = Rank.ace := hace a (by simp)
    have hrb : b.rank = Rank.ace := hace b (by simp)
    have hrc : c.rank = Rank.ace := hace c (by simp)
    have htrips : isTrips [a, b, c] = true := by
      simp [isTrips, hra, hrb, hrc]
    have hallace : ([a, b, c].all (fun x => x.rank == Rank.ace)) = true := by
      simp [hra, hrb, hrc]
    have htv : tripsValue [a, b, c] = some 31 := by
      unfold tripsValue
      rw [htrips, if_pos rfl, if_pos hallace]
    have hsuit : ∀ s : Suit, suitSum [a, b, c] s ≤ 11 := by
      intro s
      unfold suitSum
      have hconst : ∀ x ∈ [a, b, c].filter (fun cd => cd.suit == s),
          x = Card.mk s Rank.ace := by
        intro x hx
        have hxs : x.suit = s := by simpa using List.of_mem_filter hx
        have hxh : x ∈ [a, b, c] := List.mem_of_mem_filter hx
        have hxr : x.rank = Rank.ace := hace x hxh
        cases x
        simp_all
      have hle1 : ([a, b, c].filter (fun cd => cd.suit == s)).length ≤ 1 :=
        length_le_one_of_nodup_const _ (List.Nodup.filter _ hnd) _ hconst
      cases hf : [a, b, c].filter (fun cd => cd.suit == s) with
      | nil => simp
      | cons x t =>
        cases t with
        | nil =>
          have hx := hconst x (by rw [hf]; simp)
          rw [hx]
          simp [cardValue]
        | cons y u =>
          rw [hf] at hle1
          simp at hle1
    have hbssle : bestSuitScore [a, b, c] ≤ 31 := by
      unfold bestSuitScore
      apply foldr_max_le
      intro v hv
      rcases List.mem_map.mp hv with ⟨s, hs, hsv⟩
      rw [← hsv]
      exact Nat.le_trans (hsuit s) (by omega)
    rw [bestScoreVal_eq_of_some _ 31 htv]
    exact Nat.max_eq_right hbssle

/-- Witness for C4 on three distinct Aces. -/
theorem best_score_characterization_witness :
    bestScoreVal [Card.mk Suit.hearts Rank.ace, Card.mk Suit.spades Rank.ace,
      Card.mk Suit.clubs Rank.ace] = 31 :=
  (best_score_characterization _ (by decide) (by decide)).2.2.2.2 (by decide)

/-! ## C3: card conservation across all reachable states -/

/-- The hands of a cons of seats. -/
theorem handsOf_cons (p : EPlayer) (ps : List EPlayer) :
    handsOf (p :: ps) = p.hand ++ handsOf ps := by
  simp [handsOf]

/-- Dealing conserves cards: the dealt hands plus the remaining deck are
a permutation of the input deck. -/
theorem dealHands_perm (ps : List EPlayer) (deck : List Card) :
    (handsOf (dealHands deck ps).2 ++ (dealHands deck ps).1).Perm deck := by
  induction ps generalizing deck with
  | nil => simp [dealHands, handsOf]
  | cons p t ih =>
    by_cases he : p.isEliminated
    · have hd : dealHands deck (p :: t) =
          ((dealHands deck t).1,
            { p with hand := [], hasKnocked := false } :: (dealHands deck t).2) := by
        simp [dealHands, he]
      rw [hd]
      simp only [handsOf_cons]
      simpa using ih deck
    · have hd : dealHands deck (p :: t) =
          ((dealHands (deck.drop 3) t).1,
            { p with hand := deck.take 3, hasKnocked := false }
              :: (dealHands (deck.drop 3) t).2) := by
        simp [dealHands, he]
      rw [hd]
      simp only [handsOf_cons]
      have ih2 := ih (deck.drop 3)
      rw [List.append_assoc]
      have step := ih2.append_left (deck.take 3)
      have hfin : (deck.take 3 ++ deck.drop 3).Perm deck := by
        rw [List.take_append_drop]
      exact step.trans hfin

/-- deal_round conserves cards: afterwards the state holds exactly the
cards of the freshly shuffled deck. -/
theorem allCards_dealRound (newDeck : List Card) (st : EState) :
    (allCards (dealRound newDeck st)).Perm newDeck := by
  unfold allCards dealRound
  simp only []
  have hsplit := dealHands_perm st.players newDeck
  have h1 : ((dealHands newDeck st.players).1.drop 1
        ++ (dealHands newDeck st.players).1.take 1
        ++ handsOf (dealHands newDeck st.players).2).Perm
      (((dealHands newDeck st.players).1.take 1
        ++ (dealHands newDeck st.players).1.drop 1)
        ++ handsOf (dealHands newDeck st.players).2) :=
    List.Perm.append_right _ List.perm_append_comm
  have h2 : (((dealHands newDeck st.players).1.take 1
        ++ (dealHands newDeck st.players).1.drop 1)
        ++ handsOf (dealHands newDeck st.players).2).Perm
      (handsOf (dealHands newDeck st.players).2
        ++ (dealHands newDeck st.players).1) := by
    rw [List.take_append_drop]
    exact List.perm_append_comm
  exact (h1.trans h2).trans hsplit

/-- Updating one seat exchanges exactly that seat's hand inside the pool
of held cards. -/
theorem handsOf_set (ps : List EPlayer) (i : Nat) (p q : EPlayer)
    (hp : ps.get? i = some p) :
    (handsOf (ps.set i q) ++ p.hand).Perm (handsOf ps ++ q.hand) := by
  induction ps generalizing i with
  | nil => simp at hp
  | cons a t ih =>
    cases i with
    | zero =>
      have ha : a = p := Option.some.inj hp
      subst ha
      simp only [List.set, handsOf_cons]
      rw [List.perm_iff_count]
      intro x
      simp [List.count_append]
      omega
    | succ j =>
      have hp2 : t.get? j = some p := hp
      simp only [List.set, handsOf_cons]
      have ihj := ih j hp2
      rw [List.perm_iff_count] at ihj ⊢
      intro x
      have := ihj x
      simp [List.count_append] at this ⊢
      omega

/-- Removing the card at a valid index is removing one occurrence. -/
theorem perm_cons_eraseIdx (l : List Card) (i : Nat) (c : Card)
    (h : l.get? i = some c) : l.Perm (c :: l.eraseIdx i) := by
  induction l generalizing i with
  | nil => simp at h
  | cons a t ih =>
    cases i with
    | zero =>
      have : a = c := Option.some.inj h
      subst this
      simp [List.eraseIdx]
    | succ j =>
      have h2 : t.get? j = some c := h
      have hperm := ih j h2
      show (a :: t).Perm (c :: a :: t.eraseIdx j)
      exact List.Perm.trans (hperm.cons a) (List.Perm.swap c a _)

/-- Mapping a hand-preserving adjustment over the seats leaves the pool
of held cards unchanged. -/
theorem handsOf_map_preserve (f : EPlayer → EPlayer)
    (hf : ∀ p, (f p).hand = p.hand) (ps : List EPlayer) :
    handsOf (ps.map f) = handsOf ps := by
  induction ps with
  | nil => rfl
  | cons a t ih =>
    simp only [List.map, handsOf_cons, hf, ih]

/-- Penalizing seats leaves the pool of held cards unchanged. -/
theorem handsOf_penalizeOthers (w : Nat) (ps : List EPlayer) (i : Nat) :
    handsOf (penalizeOthers w i ps) = handsOf ps := by
  induction ps generalizing i with
  | nil => rfl
  | cons a t ih =>
    simp only [penalizeOthers, handsOf_cons, ih]
    congr 1
    split <;> rfl

/-- End-of-round bookkeeping does not move cards. -/
theorem allCards_checkEnd (st : EState) : allCards (checkEnd st) = allCards st := by
  unfold checkEnd allCards
  split <;> rfl

/-- Immediate-win resolution does not move cards. -/
theorem allCards_resolveImmediate (w : Nat) (st : EState) :
    allCards (resolveImmediate w st) = allCards st := by
  unfold resolveImmediate
  rw [allCards_checkEnd]
  unfold allCards
  simp only [handsOf_penalizeOthers]

/-- Normal resolution does not move cards. -/
theorem allCards_resolveRound (st : EState) :
    allCards (resolveRound st) = allCards st := by
  unfold resolveRound
  rw [allCards_checkEnd]
  unfold allCards
  simp only []
  rw [handsOf_map_preserve]
  intro p
  split <;> rfl

/-- A successful draw conserves cards: the pool after the command is a
permutation of the pool before. -/
theorem allCards_drawCmd (st st2 : EState) (i : Nat) (b : Bool) (resh : List Card)
    (hresh : resh.Perm (st.discardPile.drop 1))
    (h : drawCmd i b resh st = Except.ok st2) :
    (allCards st2).Perm (allCards st) := by
  unfold drawCmd at h
  split at h
  · exact absurd h (by simp)
  split at h
  · exact absurd h (by simp)
  split at h
  · exact absurd h (by simp)
  split at h
  · exact absurd h (by simp)
  rename_i pp hpl
  split at h
  · exact absurd h (by simp)
  split at h
  · split at h
    · exact absurd h (by simp)
    rename_i c rest hdp
    have hs : st2 = { st with
        players := st.players.set i { pp with hand := pp.hand ++ [c] }
        discardPile := rest } := (Except.ok.inj h).symm
    subst hs
    have hset := handsOf_set st.players i pp { pp with hand := pp.hand ++ [c] } hpl
    rw [List.perm_iff_count] at hset ⊢
    intro x
    have h1 := hset x
    simp only [allCards, List.count_append] at h1 ⊢
    rw [hdp]
    simp only [List.count_cons, List.count_nil] at h1 ⊢
    by_cases hx : x = c
    · simp [hx] at h1 ⊢
      omega
    · simp [hx] at h1 ⊢
      omega
  · split at h
    · rename_i c rest hdk
      have hs : st2 = { st with
          players := st.players.set i { pp with hand := pp.hand ++ [c] }
          deck := rest } := (Except.ok.inj h).symm
      subst hs
      have hset := handsOf_set st.players i pp { pp with hand := pp.hand ++ [c] } hpl
      rw [List.perm_iff_count] at hset ⊢
      intro x
      have h1 := hset x
      simp only [allCards, List.count_append] at h1 ⊢
      rw [hdk]
      simp only [List.count_cons, List.count_nil] at h1 ⊢
      by_cases hx : x = c
      · simp [hx] at h1 ⊢
        omega
      · simp [hx] at h1 ⊢
        omega
    · rename_i hdk
      split at h
      · exact absurd h (by simp)
      rename_i top more hdp
      split at h
      · exact absurd h (by simp)
      rename_i c rest2
      have hs : st2 = { st with
          players := st.players.set i { pp with hand := pp.hand ++ [c] }
          deck := rest2
          discardPile := [top] } := (Except.ok.inj h).symm
      subst hs
      have hset := handsOf_set st.players i pp { pp with hand := pp.hand ++ [c] } hpl
      rw [hdp] at hresh
      rw [List.perm_iff_count] at hset hresh ⊢
      intro x
      have h1 := hset x
      have h2 := hresh x
      simp only [allCards, List.count_append] at h1 ⊢
      rw [hdk, hdp]
      simp only [List.count_cons, List.count_nil, List.drop] at h1 h2 ⊢
      by_cases hx : x = c <;> by_cases hy : x = top
      · simp [hx, hy] at h1 h2 ⊢
        omega
      · simp [hx, hy] at h1 h2 ⊢
        omega
      · simp [hx, hy] at h1 h2 ⊢
        omega
      · simp [hx, hy] at h1 h2 ⊢
        omega

/-- A successful discard conserves cards. -/
theorem allCards_discardCmd (st st2 : EState) (i cardIdx : Nat)
    (h : discardCmd i cardIdx st = Except.ok st2) :
    (allCards st2).Perm (allCards st) := by
  unfold discardCmd at h
  split at h
  · exact absurd h (by simp)
  split at h
  · exact absurd h (by simp)
  split at h
  · exact absurd h (by simp)
  split at h
  · exact absurd h (by simp)
  rename_i pp hpl
  split at h
  · exact absurd h (by simp)
  split at h
  · exact absurd h (by simp)
  rename_i c hc
  simp only [] at h
  have hhand := perm_cons_eraseIdx pp.hand cardIdx c hc
  have hset := handsOf_set st.players i pp
    { pp with hand := pp.hand.eraseIdx cardIdx } hpl
  have hcore : (allCards { st with
      players := st.players.set i { pp with hand := pp.hand.eraseIdx cardIdx }
      discardPile := c :: st.discardPile }).Perm (allCards st) := by
    rw [List.perm_iff_count] at hset hhand ⊢
    intro x
    have h1 := hset x
    have h2 := hhand x
    simp only [allCards, List.count_append] at h1 ⊢
    simp only [List.count_cons, List.count_nil] at h1 h2 ⊢
    by_cases hx : x = c
    · simp [hx] at h1 h2 ⊢
      omega
    · simp [hx] at h1 h2 ⊢
      omega
  split at h
  · have hs : st2 = resolveImmediate i { st with
        players := st.players.set i { pp with hand := pp.hand.eraseIdx cardIdx }
        discardPile := c :: st.discardPile } := (Except.ok.inj h).symm
    subst hs
    rw [allCards_resolveImmediate]
    exact hcore
  · split at h
    · have hs : st2 = resolveRound { st with
          players := st.players.set i { pp with hand := pp.hand.eraseIdx cardIdx }
          discardPile := c :: st.discardPile } := (Except.ok.inj h).symm
      subst hs
      rw [allCards_resolveRound]
      exact hcore
    · have hs := (Except.ok.inj h).symm
      subst hs
      exact hcore

/-- A successful knock conserves cards: no card moves at all. -/
theorem allCards_knockCmd (st st2 : EState) (i : Nat)
    (h : knockCmd i st = Except.ok st2) :
    (allCards st2).Perm (allCards st) := by
  unfold knockCmd at h
  split at h
  · exact absurd h (by simp)
  split at h
  · exact absurd h (by simp)
  split at h
  · exact absurd h (by simp)
  split at h
  · exact absurd h (by simp)
  rename_i pp hpl
  split at h
  · exact absurd h (by simp)
  split at h
  · exact absurd h (by simp)
  have hs := (Except.ok.inj h).symm
  subst hs
  have hset := handsOf_set st.players i pp { pp with hasKnocked := true } hpl
  rw [List.perm_iff_count] at hset ⊢
  intro x
  have h1 := hset x
  simp only [allCards, List.count_append] at h1 ⊢
  omega

/-- The conservation invariant: every reachable state holds a permutation
of the 52-card deck across draw pile, discard pile and hands. -/
theorem conservation (st : EState) (h : Reachable st) :
    (allCards st).Perm standardDeck := by
  induction h with
  | create n deck hdeck => exact (allCards_dealRound deck _).trans hdeck
  | deal st deck hr hphase hdeck ih => exact (allCards_dealRound deck st).trans hdeck
  | draw st st2 i b resh hr hresh hcmd ih =>
    exact (allCards_drawCmd st st2 i b resh hresh hcmd).trans ih
  | disc st st2 i idx hr hcmd ih =>
    exact (allCards_discardCmd st st2 i idx hcmd).trans ih
  | knock st st2 i hr hcmd ih =>
    exact (allCards_knockCmd st st2 i hcmd).trans ih

/-- Each card occurs exactly once in the 52-card deck. -/
theorem standardDeck_count (c : Card) : standardDeck.count c = 1 := by
  revert c
  decide

/-- C3: in every reachable state each of the 52 cards is in exactly one
of draw pile, discard pile or some hand (the three occurrence counts sum
to one), and the total card count across the three zones is 52. -/
theorem card_conservation (st : EState) (h : Reachable st) :
    (∀ c : Card,
      st.deck.count c + st.discardPile.count c + (handsOf st.players).count c = 1) ∧
    st.deck.length + st.discardPile.length + (handsOf st.players).length = 52 := by
  have hp := conservation st h
  constructor
  · intro c
    have hcount := (List.perm_iff_count.mp hp) c
    rw [standardDeck_count c] at hcount
    simp only [allCards, List.count_append] at hcount
    omega
  · have hlen := hp.length_eq
    simp only [allCards, List.length_append] at hlen
    rw [hlen]
    rfl

/-- Witness for C3 at a concrete reachable state: a fresh two-seat game
dealt from the unshuffled deck. -/
theorem card_conservation_witness :
    (∀ c : Card,
      (newGame 2 standardDeck).deck.count c +
      (newGame 2 standardDeck).discardPile.count c +
      (handsOf (newGame 2 standardDeck).players).count c = 1) ∧
    (newGame 2 standardDeck).deck.length +
    (newGame 2 standardDeck).discardPile.length +
    (handsOf (newGame 2 standardDeck).players).length = 52 :=
  card_conservation (newGame 2 standardDeck)
    (Reachable.create 2 standardDeck (List.Perm.refl standardDeck))

/-! ## C5: the final round gives every other active seat exactly one turn -/

/-- Length of the scan order. -/
theorem rotationAfter_length (n i : Nat) : (rotationAfter n i).length = n := by
  simp [rotationAfter]

/-- Elements of the scan order. -/
theorem rotationAfter_getElem? (n i j : Nat) (h : j < n) :
    (rotationAfter n i)[j]? = some ((i + 1 + j) % n) := by
  simp [rotationAfter, List.getElem?_map, List.getElem?_range, h]

/-- Every element of the scan order is a valid seat index. -/
theorem rotationAfter_lt (n i x : Nat) (hn : 0 < n) (hx : x ∈ rotationAfter n i) :
    x < n := by
  rcases List.mem_map.mp hx with ⟨j, hj, hjx⟩
  rw [← hjx]
  exact Nat.mod_lt _ hn

/-- The scan order visits no seat twice. -/
theorem rotationAfter_nodup (n i : Nat) : (rotationAfter n i).Nodup := by
  cases Nat.eq_zero_or_pos n with
  | inl h0 =>
    subst h0
    simp [rotationAfter]
  | inr hn =>
    refine (List.nodup_map_iff_inj_on (List.nodup_range n)).mpr ?_
    intro j1 hj1 j2 hj2 heq
    rw [List.mem_range] at hj1 hj2
    have hmod : Nat.ModEq n j1 j2 :=
      Nat.ModEq.add_left_cancel (Nat.ModEq.refl (i + 1)) heq
    have h2 : j1 % n = j2 % n := hmod
    rwa [Nat.mod_eq_of_lt hj1, Nat.mod_eq_of_lt hj2] at h2

/-- Every seat index occurs in the scan order. -/
theorem rotationAfter_mem (n i m : Nat) (hm : m < n) : m ∈ rotationAfter n i := by
  have hn : 0 < n := Nat.lt_of_le_of_lt (Nat.zero_le m) hm
  have hsub : (rotationAfter n i).toFinset ⊆ Finset.range n := by
    intro x hx
    rw [List.mem_toFinset] at hx
    rw [Finset.mem_range]
    exact rotationAfter_lt n i x hn hx
  have hc : (rotationAfter n i).toFinset.card = n := by
    rw [List.toFinset_card_of_nodup (rotationAfter_nodup n i), rotationAfter_length]
  have heq : (rotationAfter n i).toFinset = Finset.range n :=
    Finset.eq_of_subset_of_card_le hsub (by rw [hc, Finset.card_range])
  have hmem : m ∈ (rotationAfter n i).toFinset := by
    rw [heq]
    exact Finset.mem_range.mpr hm
  exact List.mem_toFinset.mp hmem

/-- The scan order from a seat ends back at that seat. -/
theorem rotationAfter_last (n k : Nat) (hk : k < n) :
    (rotationAfter n k)[n - 1]? = some k := by
  rw [rotationAfter_getElem? n k (n - 1) (by omega)]
  congr 1
  have harith : k + 1 + (n - 1) = k + n := by omega
  rw [harith, Nat.add_mod_right]
  exact Nat.mod_eq_of_lt hk

/-- Shifting the scan order: the scan order of the seat at offset t of
the knocker's scan order starts with the remainder of that scan order. -/
theorem rotationAfter_shift (n k t : Nat) (ht : t < n) :
    (rotationAfter n ((k + 1 + t) % n)).take (n - (t + 1)) =
      (rotationAfter n k).drop (t + 1) := by
  have hn : 0 < n := by omega
  apply List.ext_getElem?
  intro m
  by_cases hm : m < n - (t + 1)
  · rw [List.getElem?_take, if_pos hm, List.getElem?_drop,
      rotationAfter_getElem? n _ m (by omega),
      rotationAfter_getElem? n k (t + 1 + m) (by omega)]
    congr 1
    conv_lhs => rw [show (k + 1 + t) % n + 1 + m = (k + 1 + t) % n + (1 + m) by omega]
    rw [Nat.mod_add_mod]
    congr 1
    omega
  · have hlen1 : ((rotationAfter n ((k + 1 + t) % n)).take (n - (t + 1))).length
        = n - (t + 1) := by
      rw [List.length_take, rotationAfter_length]
      omega
    have hlen2 : ((rotationAfter n k).drop (t + 1)).length = n - (t + 1) := by
      rw [List.length_drop, rotationAfter_length]
    rw [List.getElem?_eq_none (by omega), List.getElem?_eq_none (by omega)]

/-- A successful find? splits the list at the first hit. -/
theorem find?_decomp (p : Nat → Bool) (l : List Nat) (x : Nat)
    (h : l.find? p = some x) :
    ∃ l1 l2, l = l1 ++ x :: l2 ∧ (∀ y ∈ l1, p y = false) ∧ p x = true := by
  induction l with
  | nil => simp at h
  | cons a t ih =>
    by_cases hpa : p a = true
    · rw [List.find?_cons_of_pos _ hpa] at h
      have hax : a = x := Option.some.inj h
      subst hax
      exact ⟨[], t, rfl, by simp, hpa⟩
    · rw [List.find?_cons_of_neg _ hpa] at h
      obtain ⟨l1, l2, heq, hl1, hx⟩ := ih h
      refine ⟨a :: l1, l2, by rw [heq, List.cons_append], ?_, hx⟩
      intro y hy
      rcases List.mem_cons.mp hy with hya | hyl
      · subst hya
        simpa using hpa
      · exact hl1 y hyl

/-- A hit in a prefix is the hit of the whole list. -/
theorem find?_append_of_some (p : Nat → Bool) (l1 l2 : List Nat) (x : Nat)
    (h : l1.find? p = some x) : (l1 ++ l2).find? p = some x := by
  induction l1 with
  | nil => simp at h
  | cons a t ih =>
    by_cases hpa : p a = true
    · rw [List.find?_cons_of_pos _ hpa] at h
      rw [List.cons_append, List.find?_cons_of_pos _ hpa]
      exact h
    · rw [List.find?_cons_of_neg _ hpa] at h
      rw [List.cons_append, List.find?_cons_of_neg _ hpa]
      exact ih h

/-- takeWhile up to one appended sentinel returns the prefix. -/
theorem takeWhile_append_sentinel (k : Nat) (Q : List Nat) (hk : k ∉ Q) :
    (Q ++ [k]).takeWhile (fun j => j != k) = Q := by
  induction Q with
  | nil => simp
  | cons a t ih =>
    have hak : a ≠ k := by
      intro he
      exact hk (he ▸ List.mem_cons_self a t)
    have hmem : k ∉ t := fun hm => hk (List.mem_cons_of_mem a hm)
    rw [List.cons_append, List.takeWhile_cons, if_pos (by simp [hak]), ih hmem]

/-- The knocker appears in every suffix of its scan order that starts
within bounds. -/
theorem knocker_mem_drop (n k s : Nat) (hk : k < n) (hs : s < n) :
    k ∈ (rotationAfter n k).drop s := by
  have hget : ((rotationAfter n k).drop s)[n - 1 - s]? = some k := by
    rw [List.getElem?_drop]
    have harith : s + (n - 1 - s) = n - 1 := by omega
    rw [harith]
    exact rotationAfter_last n k hk
  exact List.getElem?_mem hget

/-- The engine's final-round walk from an offset of the knocker's scan
order collects exactly the active seats of the remaining scan order up to
the knocker. -/
theorem turnsAux_eq (ps : List EPlayer) (k : Nat)
    (hk : k < ps.length) (hak : activeAt ps k = true) :
    ∀ fuel s cur, s < ps.length →
      (rotationAfter ps.length cur).take (ps.length - s) =
        (rotationAfter ps.length k).drop s →
      ps.length - s ≤ fuel →
      turnsAux ps k fuel cur =
        (((rotationAfter ps.length k).drop s).filter (activeAt ps)).takeWhile
          (fun j => j != k) := by
  intro fuel
  induction fuel with
  | zero =>
    intro s cur hs hcur hfuel
    omega
  | succ fuel ih =>
    intro s cur hs hcur hfuel
    have hker : k ∈ (rotationAfter ps.length k).drop s :=
      knocker_mem_drop ps.length k s hk hs
    obtain ⟨x, hx⟩ : ∃ x,
        ((rotationAfter ps.length k).drop s).find? (activeAt ps) = some x :=
      Option.isSome_iff_exists.mp (List.find?_isSome.mpr ⟨k, hker, hak⟩)
    have hquot : rotationAfter ps.length cur =
        (rotationAfter ps.length k).drop s
          ++ (rotationAfter ps.length cur).drop (ps.length - s) := by
      conv_lhs =>
        rw [← List.take_append_drop (ps.length - s) (rotationAfter ps.length cur)]
      rw [hcur]
    have hfind : (rotationAfter ps.length cur).find? (activeAt ps) = some x := by
      rw [hquot]
      exact find?_append_of_some _ _ _ x hx
    have hnext : nextActiveIdx ps cur = x := by
      unfold nextActiveIdx
      rw [hfind]
      rfl
    obtain ⟨l1, l2, hdecomp, hl1, hxact⟩ := find?_decomp (activeAt ps) _ x hx
    have hfilter_suffix : ((rotationAfter ps.length k).drop s).filter (activeAt ps)
        = x :: l2.filter (activeAt ps) := by
      rw [hdecomp, List.filter_append,
        List.filter_eq_nil_iff.mpr (by intro y hy; simp [hl1 y hy]),
        List.nil_append, List.filter_cons_of_pos hxact]
    by_cases hxk : x = k
    · have hstop : turnsAux ps k (fuel + 1) cur = [] := by
        have h1 : turnsAux ps k (fuel + 1) cur =
            (if nextActiveIdx ps cur = k then []
             else nextActiveIdx ps cur :: turnsAux ps k fuel (nextActiveIdx ps cur)) := rfl
        rw [h1, hnext, if_pos hxk]
      rw [hstop, hfilter_suffix, hxk, List.takeWhile_cons]
      simp
    · have hstep : turnsAux ps k (fuel + 1) cur = x :: turnsAux ps k fuel x := by
        have h1 : turnsAux ps k (fuel + 1) cur =
            (if nextActiveIdx ps cur = k then []
             else nextActiveIdx ps cur :: turnsAux ps k fuel (nextActiveIdx ps cur)) := rfl
        rw [h1, hnext, if_neg hxk]
      have hkl2 : k ∈ l2 := by
        rw [hdecomp] at hker
        rcases List.mem_append.mp hker with hker1 | hker2
        · exact absurd hak (by simp [hl1 k hker1])
        · rcases List.mem_cons.mp hker2 with hkx | hkl
          · exact absurd hkx.symm hxk
          · exact hkl
      have hl2drop : ((rotationAfter ps.length k).drop s).drop (l1.length + 1) = l2 := by
        rw [hdecomp, show l1 ++ x :: l2 = (l1 ++ [x]) ++ l2 by simp]
        have hlen : (l1 ++ [x]).length = l1.length + 1 := by simp
        rw [← hlen]
        exact List.drop_left _ _
      have hl2R : (rotationAfter ps.length k).drop (s + (l1.length + 1)) = l2 := by
        rw [← hl2drop, List.drop_drop]
      have hs2 : s + (l1.length + 1) < ps.length := by
        have hlenl2 : ((rotationAfter ps.length k).drop (s + (l1.length + 1))).length
            = ps.length - (s + (l1.length + 1)) := by
          rw [List.length_drop, rotationAfter_length]
        rw [hl2R] at hlenl2
        have : 0 < l2.length := List.length_pos.mpr (by
          intro h0
          rw [h0] at hkl2
          cases hkl2)
        omega
      have hxval : x = (k + 1 + (s + l1.length)) % ps.length := by
        have hidx : ((rotationAfter ps.length k).drop s)[l1.length]? = some x := by
          rw [hdecomp, List.getElem?_append_right (Nat.le_refl l1.length)]
          simp
        rw [List.getElem?_drop] at hidx
        rw [rotationAfter_getElem? ps.length k (s + l1.length) (by omega)] at hidx
        exact (Option.some.inj hidx).symm
      have hcurx : (rotationAfter ps.length x).take (ps.length - (s + (l1.length + 1)))
          = (rotationAfter ps.length k).drop (s + (l1.length + 1)) := by
        have hshift := rotationAfter_shift ps.length k (s + l1.length) (by omega)
        rw [← hxval] at hshift
        have harith : s + l1.length + 1 = s + (l1.length + 1) := by omega
        rw [harith] at hshift
        exact hshift
      have hihx := ih (s + (l1.length + 1)) x hs2 hcurx (by omega)
      rw [hstep, hihx, hl2R, hfilter_suffix, List.takeWhile_cons,
        if_pos (by simp [hxk])]

/-- The complete final-round turn sequence is the active part of the
knocker's scan order, cut at the knocker. -/
theorem finalRoundTurns_eq (ps : List EPlayer) (k : Nat)
    (hk : k < ps.length) (hak : activeAt ps k = true) :
    finalRoundTurns ps k =
      ((rotationAfter ps.length k).filter (activeAt ps)).takeWhile
        (fun j => j != k) := by
  unfold finalRoundTurns
  have hstart : (rotationAfter ps.length k).take (ps.length - 0)
      = (rotationAfter ps.length k).drop 0 := by
    rw [Nat.sub_zero, List.drop_zero]
    exact List.take_of_length_le (by rw [rotationAfter_length])
  have := turnsAux_eq ps k hk hak ps.length 0 k (by omega) hstart (by omega)
  simpa using this

/-- C5: after a knock by seat k, the engine's final-round turn sequence
contains every other non-eliminated seat exactly once, never the knocker,
and never an eliminated seat — for any seat count and any pattern of
eliminations. -/
theorem knock_final_round_turns (ps : List EPlayer) (k : Nat)
    (hk : k < ps.length) (hak : activeAt ps k = true) :
    k ∉ finalRoundTurns ps k ∧
    (∀ j, j < ps.length → j ≠ k → activeAt ps j = true →
      (finalRoundTurns ps k).count j = 1) ∧
    (∀ j, activeAt ps j = false → j ∉ finalRoundTurns ps k) := by
  have hL := finalRoundTurns_eq ps k hk hak
  have hlen : (rotationAfter ps.length k).length = ps.length :=
    rotationAfter_length ps.length k
  have hnnil : rotationAfter ps.length k ≠ [] := by
    intro h0
    rw [h0] at hlen
    simp at hlen
    omega
  have hlast? : (rotationAfter ps.length k).getLast? = some k := by
    rw [List.getLast?_eq_getElem?, hlen]
    exact rotationAfter_last ps.length k hk
  have hgl : (rotationAfter ps.length k).getLast hnnil = k := by
    have h3 := List.getLast?_eq_getLast (rotationAfter ps.length k) hnnil
    rw [hlast?] at h3
    exact (Option.some.inj h3).symm
  have hdecL : rotationAfter ps.length k
      = (rotationAfter ps.length k).dropLast ++ [k] := by
    conv_lhs => rw [← List.dropLast_concat_getLast hnnil]
    rw [hgl]
  have hknd : k ∉ (rotationAfter ps.length k).dropLast := by
    have hcount : (rotationAfter ps.length k).count k = 1 :=
      List.count_eq_one_of_mem (rotationAfter_nodup ps.length k)
        (rotationAfter_mem ps.length k k hk)
    rw [hdecL, List.count_append] at hcount
    simp at hcount
    intro hmem
    have := List.count_pos_iff_mem.mpr hmem
    omega
  have hfiltL : (rotationAfter ps.length k).filter (activeAt ps)
      = ((rotationAfter ps.length k).dropLast.filter (activeAt ps)) ++ [k] := by
    conv_lhs => rw [hdecL]
    rw [List.filter_append, List.filter_cons_of_pos hak]
    rfl
  have hkQ : k ∉ (rotationAfter ps.length k).dropLast.filter (activeAt ps) := by
    intro hmem
    exact hknd (List.mem_of_mem_filter hmem)
  have hQeq : finalRoundTurns ps k
      = (rotationAfter ps.length k).dropLast.filter (activeAt ps) := by
    rw [hL, hfiltL]
    exact takeWhile_append_sentinel k _ hkQ
  have hQnodup : ((rotationAfter ps.length k).dropLast.filter (activeAt ps)).Nodup :=
    List.Nodup.filter _
      (List.Nodup.sublist (List.dropLast_sublist _) (rotationAfter_nodup ps.length k))
  refine ⟨?_, ?_, ?_⟩
  · rw [hQeq]
    exact hkQ
  · intro j hj hjk hactj
    rw [hQeq]
    have hmemL : j ∈ rotationAfter ps.length k := rotationAfter_mem ps.length k j hj
    have hmemD : j ∈ (rotationAfter ps.length k).dropLast := by
      rw [hdecL] at hmemL
      rcases List.mem_append.mp hmemL with hd | hs
      · exact hd
      · rcases List.mem_cons.mp hs with hjk2 | hnil
        · exact absurd hjk2 hjk
        · cases hnil
    have hmemQ : j ∈ (rotationAfter ps.length k).dropLast.filter (activeAt ps) :=
      List.mem_filter.mpr ⟨hmemD, hactj⟩
    exact List.count_eq_one_of_mem hQnodup hmemQ
  · intro j hinact hmem
    rw [hQeq] at hmem
    have := (List.mem_filter.mp hmem).2
    rw [hinact] at this
    cases this

/-- A concrete four-seat table with one eliminated seat, knocker at
seat 0. -/
def egPlayers : List EPlayer :=
  [{ hand := [], lives := 3, hasKnocked := true, isEliminated := false },
   { hand := [], lives := 2, hasKnocked := false, isEliminated := false },
   { hand := [], lives := 0, hasKnocked := false, isEliminated := true },
   { hand := [], lives := 1, hasKnocked := false, isEliminated := false }]

/-- Witness for C5 on the concrete table. -/
theorem knock_final_round_turns_witness :
    0 ∉ finalRoundTurns egPlayers 0 ∧
    (∀ j, j < egPlayers.length → j ≠ 0 → activeAt egPlayers j = true →
      (finalRoundTurns egPlayers 0).count j = 1) ∧
    (∀ j, activeAt egPlayers j = false → j ∉ finalRoundTurns egPlayers 0) :=
  knock_final_round_turns egPlayers 0 (by decide) (by decide)

end ThirtyOne
